import Mathlib

/-!
# Verification of the sdc3-simdata downloader core

A shallow embedding of `sdc3_simdata_downloader.py`: Python strings are
`List Char`, Python dicts (used for directory children, which rely on
insertion order) are association lists, Python's arbitrary-precision `int`
is `Int`, and the float arithmetic of `human_bytes` is modelled exactly
over `ℚ` (sound for inputs below 2^53, where every intermediate float in
the source is exact: the only operations are division by the power of two
1024 and comparison).
-/

set_option autoImplicit false

namespace SDC3

/-- Python `str`, embedded as its list of characters. -/
abbrev Str := List Char

/-- `p.lstrip("/")` from `normalize_prefix`. -/
def lstripSlash (l : Str) : Str := l.dropWhile (fun c => c = '/')

/-- `prefix.rstrip("/")` from `build_tree`. -/
def rstripSlash (l : Str) : Str := (l.reverse.dropWhile (fun c => c = '/')).reverse

/-- `p.endswith("/")`. -/
def endsWithSlash (l : Str) : Bool := l.getLast? = some '/'

/-- Python `rel.split("/")`: split on every `'/'`; empty fields are kept
(`"".split("/") == [""]`, `"a//b".split("/") == ["a","","b"]`). -/
def splitSlash : Str → List Str
  | [] => [[]]
  | c :: rest =>
    let r := splitSlash rest
    if c = '/' then [] :: r
    else
      match r with
      | s :: ss => (c :: s) :: ss
      | [] => [[c]]

/-- `os.path.join(a, b)` (POSIX): an absolute second component replaces the
first; otherwise the parts are joined with a single `'/'` unless the first
part is empty or already ends in `'/'`. -/
def joinPath (a b : Str) : Str :=
  if b.head? = some '/' then b
  else if a = [] ∨ endsWithSlash a then a ++ b
  else a ++ '/' :: b

-- ------------------------------------------------------------------
-- TreeNode (class TreeNode, lines 167-178 of the source)
-- ------------------------------------------------------------------

/-- `class TreeNode`: `name`, `children` (a dict from path segment to child,
embedded as an insertion-ordered association list), `file_count` and
`total_size` aggregates for the whole subtree. -/
inductive TreeNode where
  | mk (name : Str) (children : List (Str × TreeNode))
       (file_count : Nat) (total_size : Int)

def TreeNode.name : TreeNode → Str
  | .mk n _ _ _ => n

def TreeNode.children : TreeNode → List (Str × TreeNode)
  | .mk _ c _ _ => c

def TreeNode.file_count : TreeNode → Nat
  | .mk _ _ f _ => f

def TreeNode.total_size : TreeNode → Int
  | .mk _ _ _ s => s

/-- `TreeNode(name)`: a fresh node with empty children and zero aggregates. -/
def newNode (name : Str) : TreeNode := .mk name [] 0 0

/-- Dict lookup `node.children[part]` / `part in node.children`. -/
def lookupChild : List (Str × TreeNode) → Str → Option TreeNode
  | [], _ => none
  | (k, v) :: rest, d => if k = d then some v else lookupChild rest d

/-- Dict store `node.children[part] = v`: replace in place when the key is
present, append at the end otherwise (Python dicts keep insertion order). -/
def setChild : List (Str × TreeNode) → Str → TreeNode → List (Str × TreeNode)
  | [], d, v => [(d, v)]
  | (k, w) :: rest, d, v =>
    if k = d then (d, v) :: rest else (k, w) :: setChild rest d v

/-- `_get_or_create_child` without the insertion side effect: the value the
call returns (the stores happen in `createPath` / the callers). -/
def getOrCreate (cs : List (Str × TreeNode)) (d : Str) : TreeNode :=
  match lookupChild cs d with
  | some c => c
  | none => newNode d

/-- First loop of `build_tree`'s body: `cur = root; for d in parts[:-1]:
cur = _get_or_create_child(cur, d)` — creates every intermediate directory
node along `dirs`, leaving aggregates untouched. -/
def createPath (t : TreeNode) : List Str → TreeNode
  | [] => t
  | d :: rest =>
    .mk t.name (setChild t.children d (createPath (getOrCreate t.children d) rest))
       t.file_count t.total_size

/-- `walk.file_count += 1; if size > 0: walk.total_size += size`. -/
def bumpNode (t : TreeNode) (size : Int) : TreeNode :=
  .mk t.name t.children (t.file_count + 1)
     (t.total_size + (if 0 < size then size else 0))

/-- Second loop of `build_tree`'s body: `walk = root; for d in parts[:-1]:
walk = walk.children[d]; walk.file_count += 1; ...` — bumps the aggregates of
every (already existing) node along `dirs`. A missing child (impossible after
`createPath`) leaves the node unchanged where Python would raise `KeyError`. -/
def bumpPath (t : TreeNode) : List Str → Int → TreeNode
  | [], _ => t
  | d :: rest, size =>
    match lookupChild t.children d with
    | some c =>
      .mk t.name (setChild t.children d (bumpPath (bumpNode c size) rest size))
         t.file_count t.total_size
    | none => t

/-- The two passes fused: get-or-create the child, bump its aggregates and
recurse — provably equal to `createPath` followed by `bumpPath`
(`bumpPath_createPath`), and the form all invariant proofs use. -/
def bumpDirs (t : TreeNode) : List Str → Int → TreeNode
  | [], _ => t
  | d :: rest, size =>
    .mk t.name
       (setChild t.children d (bumpDirs (bumpNode (getOrCreate t.children d) size) rest size))
       t.file_count t.total_size

/-- The relative path split into nonempty segments: `rel = key[preflen:] if
preflen and key.startswith(prefix) else key; parts = [p for p in
rel.split("/") if p]`. -/
def segsOf (pfx key : Str) : List Str :=
  let rel := if pfx.length ≠ 0 ∧ pfx.isPrefixOf key then key.drop pfx.length else key
  (splitSlash rel).filter (fun p => p ≠ [])

/-- One iteration of `build_tree`'s loop over `iter_all_objects`: create the
intermediate directories (only entered when `len(parts) > 1`), bump every
directory on the path, then unconditionally bump the root itself. -/
def ingestEntry (root : TreeNode) (pfx key : Str) (size : Int) : TreeNode :=
  let parts := segsOf pfx key
  let root1 := if parts.length > 1 then createPath root parts.dropLast else root
  let root2 := bumpPath root1 parts.dropLast size
  .mk root2.name root2.children (root2.file_count + 1)
     (root2.total_size + (if 0 < size then size else 0))

/-- `TreeNode(prefix.rstrip("/")) if prefix else TreeNode("")`. -/
def initRoot (pfx : Str) : TreeNode :=
  if pfx ≠ [] then newNode (rstripSlash pfx) else newNode []

/-- `build_tree`, over the (key, size) sequence that `iter_all_objects`
yields. -/
def build_tree (entries : List (Str × Int)) (pfx : Str) : TreeNode :=
  entries.foldl (fun t e => ingestEntry t pfx e.1 e.2) (initRoot pfx)

/-- The node reached from `t` by following the child named by each segment
of `path` in turn (`none` when the path leaves the tree). -/
def nodeAt : TreeNode → List Str → Option TreeNode
  | t, [] => some t
  | t, d :: rest =>
    match lookupChild t.children d with
    | some c => nodeAt c rest
    | none => none

/-- `file_count` of the node at `path` (0 when there is no such node). -/
def countAt (t : TreeNode) (path : List Str) : Nat :=
  match nodeAt t path with
  | some n => n.file_count
  | none => 0

/-- `total_size` of the node at `path` (0 when there is no such node). -/
def sizeAt (t : TreeNode) (path : List Str) : Int :=
  match nodeAt t path with
  | some n => n.total_size
  | none => 0

-- ------------------------------------------------------------------
-- list_recursive (lines 150-162) and its agreement with build_tree
-- ------------------------------------------------------------------

/-- `list_recursive`: counts every object and totals the sizes of those
with `size > 0` (the printing is pure output and is not modelled). -/
def list_recursive (entries : List (Str × Int)) : Nat × Int :=
  entries.foldl
    (fun acc e => (acc.1 + 1, if 0 < e.2 then acc.2 + e.2 else acc.2)) (0, 0)

-- ------------------------------------------------------------------
-- Listing client: pagination (lines 52-118)
-- ------------------------------------------------------------------

/-- One parsed `ListObjectsV2` response, as `list_objects_v2` returns it:
the `(key, size)` pairs, the common prefixes (delimiter mode), the
truncation flag and the optional continuation token. -/
structure ListingPage where
  keys : List (Str × Int)
  common_prefixes : List Str
  is_truncated : Bool
  next_token : Option Str

/-- `iter_all_objects` viewed against the sequence of pages the server
actually returned, in order: yield each page's keys and continue exactly
while the page reports truncation. -/
def iter_all_objects : List ListingPage → List (Str × Int)
  | [] => []
  | p :: rest => p.keys ++ (if p.is_truncated then iter_all_objects rest else [])

/-- A deterministic server for the pagination loop of `iter_all_objects`:
the page it answers for each continuation token (`none` = the initial,
token-free request). -/
def Server : Type := Option Str → ListingPage

/-- The token the loop holds before its (n+1)-st request, starting from
`tok`: each truncated page's `next_token` is forwarded to the next call. -/
def chainFrom (S : Server) (tok : Option Str) : Nat → Option Str
  | 0 => tok
  | n + 1 => chainFrom S ((S tok).next_token) n

/-- The `while True` loop of `iter_all_objects` run under a fuel bound:
`none` means the loop was still running after `fuel` requests (so if every
fuel yields `none`, the loop never terminates). -/
def iterLoop (S : Server) : Nat → Option Str → Option (List (Str × Int))
  | 0, _ => none
  | fuel + 1, tok =>
    let page := S tok
    if page.is_truncated then
      match iterLoop S fuel page.next_token with
      | some out => some (page.keys ++ out)
      | none => none
    else
      some page.keys

/-- A server that always answers a truncated page with no continuation
token — the situation the claim singles out as still terminating. -/
def stuckServer : Server := fun _ => ListingPage.mk [] [] true none

-- ------------------------------------------------------------------
-- Download orchestrator (lines 122-139 and 254-265)
-- ------------------------------------------------------------------

/-- The state of one local path as the skip check sees it: no file, or a
file whose `os.path.getsize` either returns a byte count or raises
`OSError` (modelled as `none`). -/
inductive LocalFile where
  | absent
  | present (sz : Option Int)
deriving DecidableEq

/-- `download_object` (lines 127-139) with the network abstracted away:
given the filesystem state `fs`, return the `(local_path, downloaded)`
pair — `downloaded = false` only on the skip path (`size is not None`, the
file exists, and `getsize` returns exactly `size`); an `OSError` from
`getsize` falls through to the fetch. -/
def download_object (fs : Str → LocalFile) (key dest_root : Str)
    (size : Option Int) : Str × Bool :=
  let local_path := joinPath dest_root key
  match size with
  | none => (local_path, true)
  | some s =>
    match fs local_path with
    | .absent => (local_path, true)
    | .present none => (local_path, true)
    | .present (some n) => if n = s then (local_path, false) else (local_path, true)

/-- The running state of `download_prefix`'s loop: the three counters and
the filesystem as mutated by the streamed writes so far. -/
structure DLState where
  downloaded : Nat
  skipped : Nat
  total : Nat
  fs : Str → LocalFile

/-- One iteration of `download_prefix`'s loop: `total += 1`, run
`download_object`, and either record the skip or perform the streamed GET —
which leaves a local file of exactly `bodyLen key` bytes at the path. -/
def dlStep (bodyLen : Str → Nat) (dest : Str) (st : DLState) (e : Str × Int) :
    DLState :=
  let r := download_object st.fs e.1 dest (some e.2)
  if r.2 then
    DLState.mk (st.downloaded + 1) st.skipped (st.total + 1)
      (fun p => if p = r.1 then LocalFile.present (some ((bodyLen e.1 : Int))) else st.fs p)
  else
    DLState.mk st.downloaded (st.skipped + 1) (st.total + 1) st.fs

/-- `download_prefix` (lines 254-265) over the listed entries, abstracted
over the object bodies (`bodyLen`: how many bytes the GET for a key
streams) and the initial filesystem. -/
def download_prefix (bodyLen : Str → Nat) (entries : List (Str × Int))
    (dest : Str) (fs0 : Str → LocalFile) : DLState :=
  entries.foldl (dlStep bodyLen dest) (DLState.mk 0 0 0 fs0)

-- ------------------------------------------------------------------
-- normalize_prefix (lines 267-273)
-- ------------------------------------------------------------------

/-- `normalize_prefix`: `None` and the empty string normalize to the empty
string; otherwise strip every leading `'/'` and append a trailing `'/'` if
one is not already there. -/
def normalize_prefix (p : Option Str) : Str :=
  match p with
  | none => []
  | some s =>
    if s = [] then []
    else
      let s2 := lstripSlash s
      if s2 ≠ [] ∧ ¬ endsWithSlash s2 then s2 ++ ['/'] else s2

-- ------------------------------------------------------------------
-- human_bytes (lines 275-282) and the size string of print_tree
-- ------------------------------------------------------------------

/-- The `while f >= 1024 and i < len(units) - 1` loop of `human_bytes`,
with an explicit fuel argument for structural recursion; since every
iteration increments `i` and the guard demands `i < 4`, fuel `4 - i`
always suffices (`humanLoop` below supplies it). Over `ℚ` this mirrors the
source's float arithmetic exactly for `|n| < 2^53`: the only operations
are division by the power of two 1024 and a comparison, both exact on
binary floats in that range. -/
def humanLoopAux : Nat → ℚ → Nat → ℚ × Nat
  | 0, f, i => (f, i)
  | fuel + 1, f, i =>
    if 1024 ≤ f ∧ i < 4 then humanLoopAux fuel (f / 1024) (i + 1) else (f, i)

def humanLoop (f : ℚ) (i : Nat) : ℚ × Nat := humanLoopAux (4 - i) f i

/-- Round to the nearest integer, ties to the even neighbour — the
rounding `"%.2f"` performs (applied to the value scaled by 100). -/
def roundHalfEven (q : ℚ) : Int :=
  let fl := ⌊q⌋
  let frac := q - fl
  if frac < 1/2 then fl
  else if 1/2 < frac then fl + 1
  else if fl % 2 = 0 then fl else fl + 1

/-- `f"{f:.2f}"` on the exact value: round half-to-even at two decimals and
print with exactly two fractional digits (sign handling is exact for the
nonnegative values the program produces). -/
def fmt2 (q : ℚ) : String :=
  let m := roundHalfEven (q * 100)
  let sign := if m < 0 then "-" else ""
  let a := m.natAbs
  sign ++ toString (a / 100) ++ "."
    ++ (if a % 100 < 10 then "0" else "") ++ toString (a % 100)

/-- `units = ["B", "KB", "MB", "GB", "TB"]`. -/
def humanUnits : List String := ["B", "KB", "MB", "GB", "TB"]

/-- `human_bytes`: scale by 1024 onto the largest unit still ≥ 1 (capped at
TB) and format with two decimals. -/
def human_bytes (n : Int) : String :=
  match humanLoop (n : ℚ) 0 with
  | (f, i) => fmt2 f ++ " " ++ humanUnits.getD i ("B")

/-- The size string `print_tree` renders for a node, in `_emit_line` and in
the title line alike: `human_bytes(total_size)`, or the literal `"0 B"`
when the subtree holds no files. -/
def size_str (tn : TreeNode) : String :=
  if tn.file_count > 0 then human_bytes tn.total_size else "0 B"

-- ------------------------------------------------------------------
-- Structural lemmas about the tree operations
-- ------------------------------------------------------------------

@[simp] theorem name_mk (n : Str) (c : List (Str × TreeNode)) (f : Nat) (s : Int) :
    (TreeNode.mk n c f s).name = n := rfl

@[simp] theorem children_mk (n : Str) (c : List (Str × TreeNode)) (f : Nat) (s : Int) :
    (TreeNode.mk n c f s).children = c := rfl

@[simp] theorem file_count_mk (n : Str) (c : List (Str × TreeNode)) (f : Nat) (s : Int) :
    (TreeNode.mk n c f s).file_count = f := rfl

@[simp] theorem total_size_mk (n : Str) (c : List (Str × TreeNode)) (f : Nat) (s : Int) :
    (TreeNode.mk n c f s).total_size = s := rfl

theorem TreeNode.eta (t : TreeNode) :
    TreeNode.mk t.name t.children t.file_count t.total_size = t := by
  cases t
  rfl

theorem lookupChild_setChild (cs : List (Str × TreeNode)) (d e : Str) (v : TreeNode) :
    lookupChild (setChild cs d v) e = if d = e then some v else lookupChild cs e := by
  induction cs with
  | nil => simp [setChild, lookupChild]
  | cons hd tl ih =>
    obtain ⟨k, w⟩ := hd
    by_cases hk : k = d
    · subst hk
      by_cases he : k = e
      · simp [setChild, lookupChild, he]
      · simp [setChild, lookupChild, he]
    · simp only [setChild, if_neg hk, lookupChild]
      by_cases he : k = e
      · subst he
        have hne : ¬ d = k := fun h => hk h.symm
        simp [hne, lookupChild]
      · simp [he, ih]

theorem setChild_setChild (cs : List (Str × TreeNode)) (d : Str) (v w : TreeNode) :
    setChild (setChild cs d v) d w = setChild cs d w := by
  induction cs with
  | nil => simp [setChild]
  | cons hd tl ih =>
    obtain ⟨k, x⟩ := hd
    by_cases hk : k = d
    · subst hk
      simp [setChild]
    · simp [setChild, hk, ih]

@[simp] theorem bumpNode_name (t : TreeNode) (s : Int) : (bumpNode t s).name = t.name := rfl

@[simp] theorem bumpNode_children (t : TreeNode) (s : Int) :
    (bumpNode t s).children = t.children := rfl

@[simp] theorem bumpNode_file_count (t : TreeNode) (s : Int) :
    (bumpNode t s).file_count = t.file_count + 1 := rfl

@[simp] theorem bumpNode_total_size (t : TreeNode) (s : Int) :
    (bumpNode t s).total_size = t.total_size + (if 0 < s then s else 0) := rfl

/-- `createPath` only inserts children; the aggregates of a node never move. -/
theorem bumpNode_createPath (c : TreeNode) (dirs : List Str) (s : Int) :
    bumpNode (createPath c dirs) s = createPath (bumpNode c s) dirs := by
  cases dirs with
  | nil => rfl
  | cons d rest => rfl

theorem bumpPath_cons_some (t : TreeNode) (d : Str) (rest : List Str) (s : Int)
    (c : TreeNode) (h : lookupChild t.children d = some c) :
    bumpPath t (d :: rest) s =
      TreeNode.mk t.name (setChild t.children d (bumpPath (bumpNode c s) rest s))
        t.file_count t.total_size := by
  simp only [bumpPath, h]

theorem bumpDirs_cons (t : TreeNode) (d : Str) (rest : List Str) (s : Int) :
    bumpDirs t (d :: rest) s =
      TreeNode.mk t.name
        (setChild t.children d (bumpDirs (bumpNode (getOrCreate t.children d) s) rest s))
        t.file_count t.total_size := rfl

/-- The source's two walks over `parts[:-1]` — create all intermediate nodes,
then bump each of them — equal the fused walk `bumpDirs`. -/
theorem bumpPath_createPath (dirs : List Str) (t : TreeNode) (s : Int) :
    bumpPath (createPath t dirs) dirs s = bumpDirs t dirs s := by
  induction dirs generalizing t with
  | nil => rfl
  | cons d rest ih =>
    have hlook : lookupChild (createPath t (d :: rest)).children d
        = some (createPath (getOrCreate t.children d) rest) := by
      simp [createPath, lookupChild_setChild]
    rw [bumpPath_cons_some _ _ _ _ _ hlook, bumpDirs_cons]
    simp only [createPath, children_mk, name_mk, file_count_mk, total_size_mk,
      setChild_setChild]
    rw [bumpNode_createPath, ih]

theorem dropLast_of_length_le_one {α : Type} (l : List α) (h : l.length ≤ 1) :
    l.dropLast = [] := by
  match l with
  | [] => rfl
  | [x] => rfl
  | x :: y :: r => simp at h

/-- `ingestEntry` in terms of the fused walk: create-then-bump over
`parts[:-1]` collapses to `bumpDirs`, and the `len(parts) > 1` guard is
immaterial because `parts[:-1]` is empty whenever it fails. -/
theorem ingestEntry_eq (t : TreeNode) (pfx key : Str) (s : Int) :
    ingestEntry t pfx key s =
      TreeNode.mk (bumpDirs t (segsOf pfx key).dropLast s).name
        (bumpDirs t (segsOf pfx key).dropLast s).children
        ((bumpDirs t (segsOf pfx key).dropLast s).file_count + 1)
        ((bumpDirs t (segsOf pfx key).dropLast s).total_size + (if 0 < s then s else 0)) := by
  unfold ingestEntry
  by_cases h : (segsOf pfx key).length > 1
  · simp only [if_pos h, bumpPath_createPath]
  · have hd : (segsOf pfx key).dropLast = [] :=
      dropLast_of_length_le_one _ (by omega)
    simp only [if_neg h, hd]
    rfl

@[simp] theorem bumpDirs_name (t : TreeNode) (dirs : List Str) (s : Int) :
    (bumpDirs t dirs s).name = t.name := by
  cases dirs <;> rfl

@[simp] theorem bumpDirs_file_count (t : TreeNode) (dirs : List Str) (s : Int) :
    (bumpDirs t dirs s).file_count = t.file_count := by
  cases dirs <;> rfl

@[simp] theorem bumpDirs_total_size (t : TreeNode) (dirs : List Str) (s : Int) :
    (bumpDirs t dirs s).total_size = t.total_size := by
  cases dirs <;> rfl

-- ------------------------------------------------------------------
-- Aggregates at an arbitrary path through the tree
-- ------------------------------------------------------------------

@[simp] theorem countAt_nil (t : TreeNode) : countAt t [] = t.file_count := rfl

@[simp] theorem sizeAt_nil (t : TreeNode) : sizeAt t [] = t.total_size := rfl

theorem countAt_mk_cons (n : Str) (cs : List (Str × TreeNode)) (f : Nat) (s : Int)
    (d : Str) (q : List Str) :
    countAt (TreeNode.mk n cs f s) (d :: q)
      = match lookupChild cs d with
        | some c => countAt c q
        | none => 0 := by
  cases h : lookupChild cs d <;> simp [countAt, nodeAt, h]

theorem sizeAt_mk_cons (n : Str) (cs : List (Str × TreeNode)) (f : Nat) (s : Int)
    (d : Str) (q : List Str) :
    sizeAt (TreeNode.mk n cs f s) (d :: q)
      = match lookupChild cs d with
        | some c => sizeAt c q
        | none => 0 := by
  cases h : lookupChild cs d <;> simp [sizeAt, nodeAt, h]

@[simp] theorem countAt_newNode (name : Str) (q : List Str) :
    countAt (newNode name) q = 0 := by
  cases q with
  | nil => rfl
  | cons d r => simp [newNode, countAt_mk_cons, lookupChild]

@[simp] theorem sizeAt_newNode (name : Str) (q : List Str) :
    sizeAt (newNode name) q = 0 := by
  cases q with
  | nil => rfl
  | cons d r => simp [newNode, sizeAt_mk_cons, lookupChild]

theorem countAt_cons (t : TreeNode) (d : Str) (q : List Str) :
    countAt t (d :: q) = countAt (getOrCreate t.children d) q := by
  obtain ⟨n, cs, f, s⟩ := t
  rw [countAt_mk_cons]
  cases h : lookupChild cs d
  · simp [getOrCreate, h]
  · simp [getOrCreate, h]

theorem sizeAt_cons (t : TreeNode) (d : Str) (q : List Str) :
    sizeAt t (d :: q) = sizeAt (getOrCreate t.children d) q := by
  obtain ⟨n, cs, f, s⟩ := t
  rw [sizeAt_mk_cons]
  cases h : lookupChild cs d
  · simp [getOrCreate, h]
  · simp [getOrCreate, h]

theorem countAt_bumpNode_cons (t : TreeNode) (s : Int) (d : Str) (q : List Str) :
    countAt (bumpNode t s) (d :: q) = countAt t (d :: q) := by
  obtain ⟨n, cs, f, ts⟩ := t
  rw [bumpNode, countAt_mk_cons, countAt_mk_cons]
  simp

theorem sizeAt_bumpNode_cons (t : TreeNode) (s : Int) (d : Str) (q : List Str) :
    sizeAt (bumpNode t s) (d :: q) = sizeAt t (d :: q) := by
  obtain ⟨n, cs, f, ts⟩ := t
  rw [bumpNode, sizeAt_mk_cons, sizeAt_mk_cons]
  simp

/-- Core invariant step: walking `dirs` with `bumpDirs` adds one file (and
the size contribution) to exactly the nodes sitting at a nonempty path that
is a prefix of `dirs`, and leaves every other node's aggregates alone. -/
theorem aggAt_bumpDirs (s : Int) (dirs : List Str) (t : TreeNode) (q : List Str) :
    countAt (bumpDirs t dirs s) q
        = countAt t q + (if q ≠ [] ∧ q <+: dirs then 1 else 0) ∧
      sizeAt (bumpDirs t dirs s) q
        = sizeAt t q + (if q ≠ [] ∧ q <+: dirs then (if 0 < s then s else 0) else 0) := by
  induction dirs generalizing t q with
  | nil =>
    have hcond : ¬ (q ≠ [] ∧ q <+: ([] : List Str)) := by
      rintro ⟨hne, hp⟩
      exact hne (List.prefix_nil.mp hp)
    simp [bumpDirs, hcond]
  | cons d rest ih =>
    obtain ⟨nn, cc, ff, ss⟩ := t
    cases q with
    | nil => simp
    | cons e qrest =>
      rw [bumpDirs_cons]
      simp only [children_mk, name_mk, file_count_mk, total_size_mk]
      by_cases hed : e = d
      · subst hed
        have hlook : lookupChild
            (setChild cc e (bumpDirs (bumpNode (getOrCreate cc e) s) rest s)) e
            = some (bumpDirs (bumpNode (getOrCreate cc e) s) rest s) := by
          rw [lookupChild_setChild]
          simp
        rw [countAt_mk_cons, sizeAt_mk_cons, hlook]
        have hcond : ((e :: qrest) ≠ [] ∧ (e :: qrest) <+: (e :: rest))
            ↔ (qrest <+: rest) := by
          simp [List.cons_prefix_cons]
        rw [countAt_cons (TreeNode.mk nn cc ff ss) e qrest,
          sizeAt_cons (TreeNode.mk nn cc ff ss) e qrest]
        simp only [children_mk]
        obtain ⟨ihc, ihs⟩ := ih (bumpNode (getOrCreate cc e) s) qrest
        cases qrest with
        | nil =>
          simp only [ihc, ihs]
          have hnp : ([] : List Str) <+: rest := List.nil_prefix
          simp [hcond, hnp]
        | cons x xs =>
          simp only [ihc, ihs, countAt_bumpNode_cons, sizeAt_bumpNode_cons]
          by_cases hp : (x :: xs) <+: rest
          · simp [hcond, hp]
          · simp [hcond, hp]
      · have hlook : lookupChild
            (setChild cc d (bumpDirs (bumpNode (getOrCreate cc d) s) rest s)) e
            = lookupChild cc e := by
          rw [lookupChild_setChild]
          exact if_neg (fun h => hed h.symm)
        have hcond : ¬ ((e :: qrest) ≠ [] ∧ (e :: qrest) <+: (d :: rest)) := by
          rintro ⟨-, hp⟩
          exact hed (List.cons_prefix_cons.mp hp).1
        rw [countAt_mk_cons, sizeAt_mk_cons, hlook, if_neg hcond, if_neg hcond,
          countAt_mk_cons, sizeAt_mk_cons]
        simp

theorem countAt_bumpDirs (s : Int) (dirs : List Str) (t : TreeNode) (q : List Str) :
    countAt (bumpDirs t dirs s) q
      = countAt t q + (if q ≠ [] ∧ q <+: dirs then 1 else 0) :=
  (aggAt_bumpDirs s dirs t q).1

theorem sizeAt_bumpDirs (s : Int) (dirs : List Str) (t : TreeNode) (q : List Str) :
    sizeAt (bumpDirs t dirs s) q
      = sizeAt t q + (if q ≠ [] ∧ q <+: dirs then (if 0 < s then s else 0) else 0) :=
  (aggAt_bumpDirs s dirs t q).2

-- ------------------------------------------------------------------
-- From a single ingested entry to the whole fold
-- ------------------------------------------------------------------

theorem countAt_congr_children (t u : TreeNode) (h : t.children = u.children)
    (d : Str) (q : List Str) : countAt t (d :: q) = countAt u (d :: q) := by
  obtain ⟨n1, c1, f1, s1⟩ := t
  obtain ⟨n2, c2, f2, s2⟩ := u
  simp only [children_mk] at h
  subst h
  rw [countAt_mk_cons, countAt_mk_cons]

theorem sizeAt_congr_children (t u : TreeNode) (h : t.children = u.children)
    (d : Str) (q : List Str) : sizeAt t (d :: q) = sizeAt u (d :: q) := by
  obtain ⟨n1, c1, f1, s1⟩ := t
  obtain ⟨n2, c2, f2, s2⟩ := u
  simp only [children_mk] at h
  subst h
  rw [sizeAt_mk_cons, sizeAt_mk_cons]

theorem file_count_ingest (t : TreeNode) (pfx key : Str) (s : Int) :
    (ingestEntry t pfx key s).file_count = t.file_count + 1 := by
  rw [ingestEntry_eq]
  simp

theorem total_size_ingest (t : TreeNode) (pfx key : Str) (s : Int) :
    (ingestEntry t pfx key s).total_size
      = t.total_size + (if 0 < s then s else 0) := by
  rw [ingestEntry_eq]
  simp

theorem name_ingest (t : TreeNode) (pfx key : Str) (s : Int) :
    (ingestEntry t pfx key s).name = t.name := by
  rw [ingestEntry_eq]
  simp

theorem countAt_ingest (t : TreeNode) (pfx key : Str) (s : Int) (d : Str) (q : List Str) :
    countAt (ingestEntry t pfx key s) (d :: q)
      = countAt t (d :: q)
        + (if (d :: q) <+: (segsOf pfx key).dropLast then 1 else 0) := by
  have h := countAt_congr_children (ingestEntry t pfx key s)
    (bumpDirs t (segsOf pfx key).dropLast s)
    (by rw [ingestEntry_eq]; simp) d q
  rw [h, countAt_bumpDirs]
  simp

theorem sizeAt_ingest (t : TreeNode) (pfx key : Str) (s : Int) (d : Str) (q : List Str) :
    sizeAt (ingestEntry t pfx key s) (d :: q)
      = sizeAt t (d :: q)
        + (if (d :: q) <+: (segsOf pfx key).dropLast then (if 0 < s then s else 0) else 0) := by
  have h := sizeAt_congr_children (ingestEntry t pfx key s)
    (bumpDirs t (segsOf pfx key).dropLast s)
    (by rw [ingestEntry_eq]; simp) d q
  rw [h, sizeAt_bumpDirs]
  simp

theorem foldl_file_count (pfx : Str) (l : List (Str × Int)) (t : TreeNode) :
    (l.foldl (fun t e => ingestEntry t pfx e.1 e.2) t).file_count
      = t.file_count + l.length := by
  induction l generalizing t with
  | nil => simp
  | cons a l ih =>
    rw [List.foldl_cons, ih, file_count_ingest]
    simp
    omega

theorem foldl_total_size (pfx : Str) (l : List (Str × Int)) (t : TreeNode) :
    (l.foldl (fun t e => ingestEntry t pfx e.1 e.2) t).total_size
      = t.total_size + (l.map fun e => if 0 < e.2 then e.2 else 0).sum := by
  induction l generalizing t with
  | nil => simp
  | cons a l ih =>
    rw [List.foldl_cons, ih, total_size_ingest]
    simp
    ring

theorem foldl_countAt (pfx : Str) (d : Str) (q : List Str) (l : List (Str × Int))
    (t : TreeNode) :
    countAt (l.foldl (fun t e => ingestEntry t pfx e.1 e.2) t) (d :: q)
      = countAt t (d :: q)
        + (l.countP fun e => decide ((d :: q) <+: (segsOf pfx e.1).dropLast)) := by
  induction l generalizing t with
  | nil => simp
  | cons a l ih =>
    rw [List.foldl_cons, ih, countAt_ingest, List.countP_cons]
    by_cases h : (d :: q) <+: (segsOf pfx a.1).dropLast
    · simp [h]
      omega
    · simp [h]

theorem foldl_sizeAt (pfx : Str) (d : Str) (q : List Str) (l : List (Str × Int))
    (t : TreeNode) :
    sizeAt (l.foldl (fun t e => ingestEntry t pfx e.1 e.2) t) (d :: q)
      = sizeAt t (d :: q)
        + (l.map fun e =>
            if (d :: q) <+: (segsOf pfx e.1).dropLast
            then (if 0 < e.2 then e.2 else 0) else 0).sum := by
  induction l generalizing t with
  | nil => simp
  | cons a l ih =>
    rw [List.foldl_cons, ih, sizeAt_ingest]
    by_cases h : (d :: q) <+: (segsOf pfx a.1).dropLast
    · simp [h]
      ring
    · simp [h]

@[simp] theorem initRoot_file_count (pfx : Str) : (initRoot pfx).file_count = 0 := by
  unfold initRoot
  split
  · rfl
  · rfl

@[simp] theorem initRoot_total_size (pfx : Str) : (initRoot pfx).total_size = 0 := by
  unfold initRoot
  split
  · rfl
  · rfl

@[simp] theorem initRoot_countAt (pfx : Str) (q : List Str) :
    countAt (initRoot pfx) q = 0 := by
  unfold initRoot
  split
  · exact countAt_newNode _ _
  · exact countAt_newNode _ _

@[simp] theorem initRoot_sizeAt (pfx : Str) (q : List Str) :
    sizeAt (initRoot pfx) q = 0 := by
  unfold initRoot
  split
  · exact sizeAt_newNode _ _
  · exact sizeAt_newNode _ _

/-- A nonempty path is a prefix of `segs.dropLast` exactly when it is a
proper prefix of `segs`: the set of strict ancestors of the file named by
`segs`. -/
theorem prefix_dropLast_iff (q segs : List Str) (h : q ≠ []) :
    q <+: segs.dropLast ↔ (q <+: segs ∧ q ≠ segs) := by
  rw [List.dropLast_eq_take, List.prefix_take_iff]
  constructor
  · rintro ⟨hp, hlen⟩
    refine ⟨hp, ?_⟩
    rintro rfl
    have h0 : q.length = 0 := by omega
    exact h (List.eq_nil_of_length_eq_zero h0)
  · rintro ⟨hp, hne⟩
    refine ⟨hp, ?_⟩
    have hle := hp.length_le
    have hlt : q.length ≠ segs.length := fun heq => hne (hp.eq_of_length heq)
    omega

theorem countP_iff_congr {P Q : Str × Int → Prop} [DecidablePred P] [DecidablePred Q]
    (l : List (Str × Int)) (h : ∀ e, P e ↔ Q e) :
    (l.countP fun e => decide (P e)) = l.countP fun e => decide (Q e) := by
  induction l with
  | nil => rfl
  | cons a l ih =>
    rw [List.countP_cons, List.countP_cons, ih]
    simp [decide_eq_decide.mpr (h a)]

theorem sum_map_ite_congr {P Q : Str × Int → Prop} [DecidablePred P] [DecidablePred Q]
    (l : List (Str × Int)) (f : Str × Int → Int) (h : ∀ e, P e ↔ Q e) :
    (l.map fun e => if P e then f e else 0).sum
      = (l.map fun e => if Q e then f e else 0).sum := by
  induction l with
  | nil => rfl
  | cons a l ih =>
    by_cases ha : P a
    · simp [ha, (h a).mp ha, ih]
    · have hqa : ¬ Q a := fun hq => ha ((h a).mpr hq)
      simp [ha, hqa, ih]

theorem sum_map_ite_eq_filter {P : Str × Int → Prop} [DecidablePred P]
    (l : List (Str × Int)) (f : Str × Int → Int) :
    (l.map fun e => if P e then f e else 0).sum
      = ((l.filter fun e => decide (P e)).map f).sum := by
  induction l with
  | nil => rfl
  | cons a l ih =>
    by_cases ha : P a
    · simp [ha, ih]
    · simp [ha, ih]

theorem build_tree_file_count (entries : List (Str × Int)) (pfx : Str) :
    (build_tree entries pfx).file_count = entries.length := by
  unfold build_tree
  rw [foldl_file_count]
  simp

theorem build_tree_total_size (entries : List (Str × Int)) (pfx : Str) :
    (build_tree entries pfx).total_size
      = (entries.map fun e => if 0 < e.2 then e.2 else 0).sum := by
  unfold build_tree
  rw [foldl_total_size]
  simp

theorem build_tree_countAt (entries : List (Str × Int)) (pfx : Str) (d : Str)
    (q : List Str) :
    countAt (build_tree entries pfx) (d :: q)
      = entries.countP fun e => decide ((d :: q) <+: (segsOf pfx e.1).dropLast) := by
  unfold build_tree
  rw [foldl_countAt]
  simp

theorem build_tree_sizeAt (entries : List (Str × Int)) (pfx : Str) (d : Str)
    (q : List Str) :
    sizeAt (build_tree entries pfx) (d :: q)
      = (entries.map fun e =>
          if (d :: q) <+: (segsOf pfx e.1).dropLast
          then (if 0 < e.2 then e.2 else 0) else 0).sum := by
  unfold build_tree
  rw [foldl_sizeAt]
  simp

-- ------------------------------------------------------------------
-- Claims about the tree aggregator
-- ------------------------------------------------------------------

/-- C1: `build_tree` gives the root a `file_count` equal to the number of
ingested entries and a `total_size` equal to the sum of the sizes of the
entries with size > 0, and both root aggregates are invariant under any
permutation of the ingestion order. -/
theorem claim_C1 (entries : List (Str × Int)) (pfx : Str) :
    (build_tree entries pfx).file_count = entries.length ∧
    (build_tree entries pfx).total_size
      = ((entries.filter fun e => decide (0 < e.2)).map fun e => e.2).sum ∧
    ∀ entries2 : List (Str × Int), entries.Perm entries2 →
      (build_tree entries2 pfx).file_count = (build_tree entries pfx).file_count ∧
      (build_tree entries2 pfx).total_size = (build_tree entries pfx).total_size := by
  refine ⟨build_tree_file_count entries pfx, ?_, ?_⟩
  · rw [build_tree_total_size]
    exact @sum_map_ite_eq_filter (fun e => 0 < e.2) _ entries (fun e => e.2)
  · intro entries2 hperm
    constructor
    · rw [build_tree_file_count, build_tree_file_count]
      exact hperm.length_eq.symm
    · rw [build_tree_total_size, build_tree_total_size]
      exact ((hperm.map fun e => if 0 < e.2 then e.2 else 0).sum_eq).symm

/-- Witness for C1 at a concrete input: a two-entry listing and a
transposition of it. -/
theorem claim_C1_witness :
    ([(['a'], (5:Int)), (['b'], -1)] : List (Str × Int)).Perm
        [(['b'], -1), (['a'], 5)] ∧
    (build_tree [(['b'], (-1:Int)), (['a'], 5)] []).file_count
      = (build_tree [(['a'], (5:Int)), (['b'], -1)] []).file_count :=
  ⟨by decide,
    ((claim_C1 [(['a'], 5), (['b'], -1)] []).2.2 [(['b'], -1), (['a'], 5)]
      (by decide)).1⟩

/-- C2: every directory node of the built tree — the node reached by a
nonempty path `q` of segment names — has `file_count` equal to the number of
ingested entries whose (relative, segment-split) key has `q` as a strict
ancestor, i.e. as a proper prefix, and `total_size` equal to the sum of the
sizes > 0 of those same entries. -/
theorem claim_C2 (entries : List (Str × Int)) (pfx : Str) (q : List Str)
    (node : TreeNode) (hq : q ≠ [])
    (hnode : nodeAt (build_tree entries pfx) q = some node) :
    node.file_count
      = (entries.filter fun e =>
          decide (q <+: segsOf pfx e.1 ∧ q ≠ segsOf pfx e.1)).length ∧
    node.total_size
      = ((entries.filter fun e =>
          decide (q <+: segsOf pfx e.1 ∧ q ≠ segsOf pfx e.1)).map
            fun e => if 0 < e.2 then e.2 else 0).sum := by
  cases q with
  | nil => exact absurd rfl hq
  | cons d qr =>
    have hcnt : countAt (build_tree entries pfx) (d :: qr) = node.file_count := by
      simp [countAt, hnode]
    have hsz : sizeAt (build_tree entries pfx) (d :: qr) = node.total_size := by
      simp [sizeAt, hnode]
    constructor
    · rw [← hcnt, build_tree_countAt,
        countP_iff_congr entries
          (fun e => prefix_dropLast_iff (d :: qr) (segsOf pfx e.1) (by simp)),
        List.countP_eq_length_filter]
    · rw [← hsz, build_tree_sizeAt,
        @sum_map_ite_congr (fun e => (d :: qr) <+: (segsOf pfx e.1).dropLast)
          (fun e => (d :: qr) <+: segsOf pfx e.1 ∧ (d :: qr) ≠ segsOf pfx e.1) _ _
          entries (fun e => if 0 < e.2 then e.2 else 0)
          (fun e => prefix_dropLast_iff (d :: qr) (segsOf pfx e.1) (by simp)),
        @sum_map_ite_eq_filter
          (fun e => (d :: qr) <+: segsOf pfx e.1 ∧ (d :: qr) ≠ segsOf pfx e.1) _
          entries (fun e => if 0 < e.2 then e.2 else 0)]

/-- Witness for C2: the spec's own scenario — `a/b.txt`, `a/c.txt`,
`root.txt` under the empty scope — at the directory node `a`. -/
theorem claim_C2_witness :
    (TreeNode.mk ['a'] [] 2 30).file_count
      = (([(("a/b.txt").toList, (10:Int)), (("a/c.txt").toList, 20),
          (("root.txt").toList, 5)] : List (Str × Int)).filter
          fun e => decide ([['a']] <+: segsOf [] e.1 ∧ [['a']] ≠ segsOf [] e.1)).length ∧
    (TreeNode.mk ['a'] [] 2 30).total_size
      = ((([(("a/b.txt").toList, (10:Int)), (("a/c.txt").toList, 20),
          (("root.txt").toList, 5)] : List (Str × Int)).filter
          fun e => decide ([['a']] <+: segsOf [] e.1 ∧ [['a']] ≠ segsOf [] e.1)).map
            fun e => if 0 < e.2 then e.2 else 0).sum :=
  claim_C2 [(("a/b.txt").toList, 10), (("a/c.txt").toList, 20), (("root.txt").toList, 5)]
    [] [['a']] (TreeNode.mk ['a'] [] 2 30) (by decide) rfl

/-- The key that equals the scoping string splits into no segments at all. -/
theorem segsOf_self (pfx : Str) : segsOf pfx pfx = [] := by
  unfold segsOf
  by_cases h : pfx = []
  · subst h
    rfl
  · have hlen : pfx.length ≠ 0 := by
      simpa [List.length_eq_zero] using h
    have hpref : pfx.isPrefixOf pfx = true :=
      List.isPrefixOf_iff_prefix.mpr (List.prefix_refl pfx)
    simp only [hlen, hpref, ne_eq, not_false_iff, true_and, if_pos, List.drop_length]
    rfl

/-- C7: ingesting an entry whose key equals the scoping string (relative
path empty after stripping) counts it as a root-level file: `file_count`
grows by exactly one, no child node is created, the name is untouched, and
with size ≤ 0 the `total_size` is unchanged as well. -/
theorem claim_C7 (t : TreeNode) (pfx : Str) (s : Int) (hs : s ≤ 0) :
    (ingestEntry t pfx pfx s).file_count = t.file_count + 1 ∧
    (ingestEntry t pfx pfx s).total_size = t.total_size ∧
    (ingestEntry t pfx pfx s).children = t.children ∧
    (ingestEntry t pfx pfx s).name = t.name := by
  have hns : ¬ 0 < s := by omega
  rw [ingestEntry_eq, segsOf_self]
  simp [bumpDirs, hns]

/-- Witness for C7: the spec's scenario `prefix = key = "SDC3/"`, size 0,
ingested into a fresh root. -/
theorem claim_C7_witness :
    ((0:Int) ≤ 0) ∧
    (ingestEntry (newNode []) (("SDC3/").toList) (("SDC3/").toList) 0).file_count
      = (newNode []).file_count + 1 ∧
    (ingestEntry (newNode []) (("SDC3/").toList) (("SDC3/").toList) 0).total_size
      = (newNode []).total_size ∧
    (ingestEntry (newNode []) (("SDC3/").toList) (("SDC3/").toList) 0).children
      = (newNode []).children :=
  ⟨by decide,
    (claim_C7 (newNode []) (("SDC3/").toList) 0 (by decide)).1,
    (claim_C7 (newNode []) (("SDC3/").toList) 0 (by decide)).2.1,
    (claim_C7 (newNode []) (("SDC3/").toList) 0 (by decide)).2.2.1⟩

theorem list_recursive_foldl (l : List (Str × Int)) (acc : Nat × Int) :
    l.foldl (fun acc e => (acc.1 + 1, if 0 < e.2 then acc.2 + e.2 else acc.2)) acc
      = (acc.1 + l.length, acc.2 + (l.map fun e => if 0 < e.2 then e.2 else 0).sum) := by
  induction l generalizing acc with
  | nil => simp
  | cons a l ih =>
    rw [List.foldl_cons, ih]
    by_cases h : 0 < a.2
    · simp [h]
      constructor
      · omega
      · ring
    · simp [h]
      omega

/-- C9: the flat recursive lister and the tree aggregator agree on the
top-level aggregate — `list_recursive`'s (count, total_bytes) equals the
root's (file_count, total_size) from `build_tree` on the same entries,
whatever scoping string the tree was built with. -/
theorem claim_C9 (entries : List (Str × Int)) (pfx : Str) :
    (list_recursive entries).1 = (build_tree entries pfx).file_count ∧
    (list_recursive entries).2 = (build_tree entries pfx).total_size := by
  unfold list_recursive
  rw [list_recursive_foldl, build_tree_file_count, build_tree_total_size]
  simp

/-- C3: whenever every page but the last reports truncation (as a
conforming server does), `iter_all_objects` yields exactly the
concatenation of all pages' keys, in server order — so each listed object
appears exactly once however the listing is split into pages. -/
theorem claim_C3 (pages : List ListingPage)
    (h : ∀ p ∈ pages.dropLast, p.is_truncated = true) :
    iter_all_objects pages = (pages.map ListingPage.keys).flatten := by
  induction pages with
  | nil => rfl
  | cons p rest ih =>
    cases rest with
    | nil =>
      cases htr : p.is_truncated
      · simp [iter_all_objects, htr]
      · simp [iter_all_objects, htr]
    | cons r rs =>
      have hp : p.is_truncated = true := h p (by simp [List.dropLast])
      have hrest : ∀ q ∈ (r :: rs).dropLast, q.is_truncated = true := by
        intro q hq
        exact h q (by simp [List.dropLast, hq])
      have e1 : iter_all_objects (p :: r :: rs)
          = p.keys ++ (if p.is_truncated = true
              then iter_all_objects (r :: rs) else []) := rfl
      rw [e1, hp, ih hrest]
      simp

/-- Witness for C3: two pages, the first truncated, the second final. -/
theorem claim_C3_witness :
    (∀ p ∈ ([ListingPage.mk [(['a'], 1)] [] true (some ['t']),
             ListingPage.mk [(['b'], 2)] [] false none] : List ListingPage).dropLast,
        p.is_truncated = true) ∧
    iter_all_objects
        [ListingPage.mk [(['a'], 1)] [] true (some ['t']),
         ListingPage.mk [(['b'], 2)] [] false none]
      = (([ListingPage.mk [(['a'], 1)] [] true (some ['t']),
          ListingPage.mk [(['b'], 2)] [] false none] : List ListingPage).map
            ListingPage.keys).flatten :=
  ⟨by intro p hp; simp [List.dropLast] at hp; rw [hp],
    claim_C3 [ListingPage.mk [(['a'], 1)] [] true (some ['t']),
      ListingPage.mk [(['b'], 2)] [] false none]
      (by intro p hp; simp [List.dropLast] at hp; rw [hp])⟩

theorem iterLoop_stuckServer (fuel : Nat) (tok : Option Str) :
    iterLoop stuckServer fuel tok = none := by
  induction fuel generalizing tok with
  | zero => rfl
  | succ fuel ih => simp [iterLoop, stuckServer, ih]

/-- Counterexample to C4 as stated: against a server whose every response
is truncated and carries no continuation token, the pagination loop of
`iter_all_objects` never terminates (no amount of fuel completes it) —
a truncated page with an absent token makes the loop re-issue the initial
request, not stop. -/
theorem claim_C4_counterexample :
    (∀ tok : Option Str, (stuckServer tok).is_truncated = true ∧
        (stuckServer tok).next_token = none) ∧
    ¬ ∃ fuel : Nat, ∃ out, iterLoop stuckServer fuel none = some out := by
  refine ⟨fun tok => ⟨rfl, rfl⟩, ?_⟩
  rintro ⟨fuel, out, hout⟩
  rw [iterLoop_stuckServer] at hout
  exact Option.noConfusion hout

theorem iterLoop_diverges (S : Server) (fuel : Nat) (tok : Option Str)
    (h : ∀ n, (S (chainFrom S tok n)).is_truncated = true) :
    iterLoop S fuel tok = none := by
  induction fuel generalizing tok with
  | zero => rfl
  | succ fuel ih =>
    have h0 : (S tok).is_truncated = true := h 0
    have hrec : iterLoop S fuel ((S tok).next_token) = none :=
      ih ((S tok).next_token) (fun n => h (n + 1))
    simp [iterLoop, h0, hrec]

theorem iterLoop_halts (S : Server) (m : Nat) (tok : Option Str)
    (h : (S (chainFrom S tok m)).is_truncated = false) :
    ∃ out, iterLoop S (m + 1) tok = some out := by
  induction m generalizing tok with
  | zero =>
    simp only [chainFrom] at h
    exact ⟨(S tok).keys, by simp [iterLoop, h]⟩
  | succ m ih =>
    have e1 : iterLoop S (m + 1 + 1) tok
        = (if (S tok).is_truncated = true then
            match iterLoop S (m + 1) ((S tok).next_token) with
            | some o => some ((S tok).keys ++ o)
            | none => none
          else some ((S tok).keys)) := rfl
    cases htr : (S tok).is_truncated
    · exact ⟨(S tok).keys, by rw [e1, htr]; simp⟩
    · obtain ⟨out, hout⟩ := ih ((S tok).next_token) h
      refine ⟨(S tok).keys ++ out, ?_⟩
      rw [e1, htr, hout]
      simp

/-- C4 as amended: the pagination loop terminates exactly when some page
along the continuation-token chain reports `is_truncated = false`; it is
NOT terminating for every server response sequence (see the
counterexample, where every response is truncated with no token). -/
theorem claim_C4 (S : Server) :
    (∃ fuel : Nat, ∃ out, iterLoop S fuel none = some out)
      ↔ ∃ n, (S (chainFrom S none n)).is_truncated = false := by
  constructor
  · intro hterm
    by_contra hall
    push_neg at hall
    have hall2 : ∀ n, (S (chainFrom S none n)).is_truncated = true := by
      intro n
      cases htr : (S (chainFrom S none n)).is_truncated
      · exact absurd htr (hall n)
      · rfl
    obtain ⟨fuel, out, hout⟩ := hterm
    rw [iterLoop_diverges S fuel none hall2] at hout
    exact Option.noConfusion hout
  · rintro ⟨n, hn⟩
    obtain ⟨out, hout⟩ := iterLoop_halts S n none hn
    exact ⟨n + 1, out, hout⟩

/-- C5: `download_object` skips (returns `downloaded = false`) exactly when
the remote size is known, a local file exists at the computed path, and its
byte length equals that size; a missing file, a size mismatch, an unknown
remote size, or an `OSError` while checking all lead to a fetch
(`downloaded = true`); and the returned path is always the join of the
destination root with the full key. -/
theorem claim_C5 (fs : Str → LocalFile) (key dest_root : Str) (size : Option Int) :
    ((download_object fs key dest_root size).2 = false
      ↔ ∃ s, size = some s
          ∧ fs (joinPath dest_root key) = LocalFile.present (some s)) ∧
    (download_object fs key dest_root size).1 = joinPath dest_root key := by
  unfold download_object
  cases size with
  | none => simp
  | some s =>
    cases hfs : fs (joinPath dest_root key) with
    | absent => simp [hfs]
    | present o =>
      cases o with
      | none => simp [hfs]
      | some n =>
        by_cases hn : n = s
        · subst hn
          simp [hfs]
        · simp [hfs, hn]

/-- Counterexample to C6 as stated: a single entry whose listed size is the
unknown-size sentinel `-1` (a `Contents` element with no `Size`, unchanged
between the two runs; its body streams 0 bytes). The first run fetches it
and leaves a 0-byte file, but the second run fetches it AGAIN — `getsize`
returns 0, never `-1` — so `downloaded = 1 ≠ 0` and `skipped = 0 ≠ total`. -/
theorem claim_C6_counterexample :
    ( download_prefix (fun _ => 0) [((['a'] : Str), (-1 : Int))] ['d']
        (( download_prefix (fun _ => 0) [((['a'] : Str), (-1 : Int))] ['d']
            (fun _ => LocalFile.absent)).fs)).downloaded = 1 ∧
    ( download_prefix (fun _ => 0) [((['a'] : Str), (-1 : Int))] ['d']
        (( download_prefix (fun _ => 0) [((['a'] : Str), (-1 : Int))] ['d']
            (fun _ => LocalFile.absent)).fs)).skipped = 0 ∧
    ( download_prefix (fun _ => 0) [((['a'] : Str), (-1 : Int))] ['d']
        (( download_prefix (fun _ => 0) [((['a'] : Str), (-1 : Int))] ['d']
            (fun _ => LocalFile.absent)).fs)).total = 1 :=
  ⟨rfl, rfl, rfl⟩

theorem download_object_fst (fs : Str → LocalFile) (k d : Str) (s : Option Int) :
    (download_object fs k d s).1 = joinPath d k := by
  unfold download_object
  cases s with
  | none => rfl
  | some v =>
    cases hfs : fs (joinPath d k) with
    | absent => simp [hfs]
    | present o =>
      cases o with
      | none => simp [hfs]
      | some n =>
        by_cases hn : n = v
        · simp [hfs, hn]
        · simp [hfs, hn]

theorem download_object_skip_iff (fs : Str → LocalFile) (k d : Str) (s : Int) :
    (download_object fs k d (some s)).2 = false
      ↔ fs (joinPath d k) = LocalFile.present (some s) := by
  unfold download_object
  cases hfs : fs (joinPath d k) with
  | absent => simp [hfs]
  | present o =>
    cases o with
    | none => simp [hfs]
    | some n =>
      by_cases hn : n = s
      · subst hn
        simp [hfs]
      · simp [hfs, hn]

theorem joinPath_inj (dest k1 k2 : Str) (h1 : k1.head? ≠ some '/')
    (h2 : k2.head? ≠ some '/') (heq : joinPath dest k1 = joinPath dest k2) :
    k1 = k2 := by
  unfold joinPath at heq
  rw [if_neg h1, if_neg h2] at heq
  by_cases hd : dest = [] ∨ endsWithSlash dest
  · rw [if_pos hd, if_pos hd] at heq
    exact List.append_cancel_left heq
  · rw [if_neg hd, if_neg hd] at heq
    have := List.append_cancel_left heq
    exact List.tail_eq_of_cons_eq this

/-- Any write `download_prefix`'s loop performs lands at the joined path of
some listed key and stores exactly that key's streamed body length; every
other path keeps its prior state. -/
theorem foldl_dlStep_fs (bodyLen : Str → Nat) (dest : Str)
    (l : List (Str × Int)) (st : DLState) (p : Str) :
    (l.foldl (dlStep bodyLen dest) st).fs p = st.fs p ∨
    ∃ k, (∃ sz, (k, sz) ∈ l) ∧ p = joinPath dest k ∧
      (l.foldl (dlStep bodyLen dest) st).fs p
        = LocalFile.present (some ((bodyLen k : Int))) := by
  induction l generalizing st with
  | nil => exact Or.inl rfl
  | cons a l ih =>
    rw [List.foldl_cons]
    rcases ih (dlStep bodyLen dest st a) with h | ⟨k, ⟨sz, hk⟩, hp, hv⟩
    · rw [h]
      unfold dlStep
      by_cases hr : (download_object st.fs a.1 dest (some a.2)).2
      · rw [if_pos hr]
        by_cases hpp : p = (download_object st.fs a.1 dest (some a.2)).1
        · right
          refine ⟨a.1, ⟨a.2, List.mem_cons_self a l⟩, ?_, ?_⟩
          · rw [hpp, download_object_fst]
          · simp [hpp]
        · left
          simp [hpp]
      · rw [if_neg hr]
        exact Or.inl rfl
    · right
      exact ⟨k, ⟨sz, List.mem_cons_of_mem a hk⟩, hp, hv⟩

/-- After a run of `download_prefix`, every listed entry whose size agrees
with its body length (and whose key is not absolute) has a local file of
exactly that size at its joined path. -/
theorem foldl_dlStep_written (bodyLen : Str → Nat) (dest : Str)
    (l : List (Str × Int)) (st : DLState)
    (hsz : ∀ e ∈ l, e.2 = ((bodyLen e.1 : Nat) : Int))
    (hkey : ∀ e ∈ l, e.1.head? ≠ some '/') :
    ∀ e ∈ l, (l.foldl (dlStep bodyLen dest) st).fs (joinPath dest e.1)
        = LocalFile.present (some e.2) := by
  induction l generalizing st with
  | nil =>
    intro e he
    cases he
  | cons a l ih =>
    intro e he
    rw [List.foldl_cons]
    rcases List.mem_cons.mp he with rfl | hel
    · have hstep : (dlStep bodyLen dest st e).fs (joinPath dest e.1)
          = LocalFile.present (some e.2) := by
        unfold dlStep
        by_cases hr : (download_object st.fs e.1 dest (some e.2)).2
        · rw [if_pos hr]
          simp only [download_object_fst]
          rw [hsz e (List.mem_cons_self e l)]
          simp
        · rw [if_neg hr]
          simp only []
          have hb : (download_object st.fs e.1 dest (some e.2)).2 = false := by
            cases hx : (download_object st.fs e.1 dest (some e.2)).2
            · rfl
            · exact absurd hx hr
          exact (download_object_skip_iff st.fs e.1 dest e.2).mp hb
      rcases foldl_dlStep_fs bodyLen dest l (dlStep bodyLen dest st e)
          (joinPath dest e.1) with hsame | ⟨k, ⟨sz, hkmem⟩, hpth, hval⟩
      · rw [hsame, hstep]
      · have hk1 : k.head? ≠ some '/' :=
          hkey (k, sz) (List.mem_cons_of_mem e hkmem)
        have he1 : e.1.head? ≠ some '/' := hkey e (List.mem_cons_self e l)
        have hke : k = e.1 := joinPath_inj dest k e.1 hk1 he1 hpth.symm
        rw [hval, hke, ← hsz e (List.mem_cons_self e l)]
    · exact ih (dlStep bodyLen dest st a)
        (fun x hx => hsz x (List.mem_cons_of_mem a hx))
        (fun x hx => hkey x (List.mem_cons_of_mem a hx)) e hel

/-- A run over entries that all pass the skip check: nothing is fetched,
every entry is skipped, the filesystem is untouched. -/
theorem foldl_dlStep_all_skip (bodyLen : Str → Nat) (dest : Str)
    (l : List (Str × Int)) (st : DLState)
    (h : ∀ e ∈ l, st.fs (joinPath dest e.1) = LocalFile.present (some e.2)) :
    l.foldl (dlStep bodyLen dest) st
      = DLState.mk st.downloaded (st.skipped + l.length) (st.total + l.length) st.fs := by
  induction l generalizing st with
  | nil =>
    cases st
    simp
  | cons a l ih =>
    rw [List.foldl_cons]
    have hr : (download_object st.fs a.1 dest (some a.2)).2 = false :=
      (download_object_skip_iff st.fs a.1 dest a.2).mpr (h a (List.mem_cons_self a l))
    have hstep : dlStep bodyLen dest st a
        = DLState.mk st.downloaded (st.skipped + 1) (st.total + 1) st.fs := by
      simp [dlStep, hr]
    rw [hstep, ih (DLState.mk st.downloaded (st.skipped + 1) (st.total + 1) st.fs)
      (fun x hx => h x (List.mem_cons_of_mem a hx))]
    have e1 : st.skipped + 1 + l.length = st.skipped + (a :: l).length := by
      simp
      omega
    have e2 : st.total + 1 + l.length = st.total + (a :: l).length := by
      simp
      omega
    rw [e1, e2]

/-- C6 as amended: re-running `download_prefix` with the listing unchanged
downloads nothing and skips everything, PROVIDED every listed size is the
true body length of its object (in particular no `-1` unknown-size
sentinel — see the counterexample) and no key is absolute. -/
theorem claim_C6 (bodyLen : Str → Nat) (entries : List (Str × Int)) (dest : Str)
    (fs0 : Str → LocalFile)
    (hsz : ∀ e ∈ entries, e.2 = ((bodyLen e.1 : Nat) : Int))
    (hkey : ∀ e ∈ entries, e.1.head? ≠ some '/') :
    ( download_prefix bodyLen entries dest
        (( download_prefix bodyLen entries dest fs0).fs)).downloaded = 0 ∧
    ( download_prefix bodyLen entries dest
        (( download_prefix bodyLen entries dest fs0).fs)).skipped
      = ( download_prefix bodyLen entries dest
          (( download_prefix bodyLen entries dest fs0).fs)).total ∧
    ( download_prefix bodyLen entries dest
        (( download_prefix bodyLen entries dest fs0).fs)).total = entries.length := by
  have hfiles : ∀ e ∈ entries,
      (( download_prefix bodyLen entries dest fs0).fs) (joinPath dest e.1)
        = LocalFile.present (some e.2) := by
    intro e he
    unfold download_prefix
    exact foldl_dlStep_written bodyLen dest entries (DLState.mk 0 0 0 fs0) hsz hkey e he
  have hrun2 : download_prefix bodyLen entries dest
      (( download_prefix bodyLen entries dest fs0).fs)
      = DLState.mk 0 (0 + entries.length) (0 + entries.length)
          (( download_prefix bodyLen entries dest fs0).fs) := by
    unfold download_prefix
    exact foldl_dlStep_all_skip bodyLen dest entries
      (DLState.mk 0 0 0 (( download_prefix bodyLen entries dest fs0).fs)) hfiles
  rw [hrun2]
  simp

/-- Witness for C6 at a concrete input: one entry of known size 5 whose
body is 5 bytes, downloaded twice into an initially empty filesystem. -/
theorem claim_C6_witness :
    ( download_prefix (fun _ => 5) [((['a'] : Str), (5 : Int))] ['d']
        (( download_prefix (fun _ => 5) [((['a'] : Str), (5 : Int))] ['d']
            (fun _ => LocalFile.absent)).fs)).downloaded = 0 ∧
    ( download_prefix (fun _ => 5) [((['a'] : Str), (5 : Int))] ['d']
        (( download_prefix (fun _ => 5) [((['a'] : Str), (5 : Int))] ['d']
            (fun _ => LocalFile.absent)).fs)).skipped
      = ( download_prefix (fun _ => 5) [((['a'] : Str), (5 : Int))] ['d']
          (( download_prefix (fun _ => 5) [((['a'] : Str), (5 : Int))] ['d']
              (fun _ => LocalFile.absent)).fs)).total :=
  have h := claim_C6 (fun _ => 5) [((['a'] : Str), (5 : Int))] ['d']
    (fun _ => LocalFile.absent) (by decide) (by decide)
  ⟨h.1, h.2.1⟩

theorem lstripSlash_head (l : Str) : (lstripSlash l).head? ≠ some '/' := by
  induction l with
  | nil => simp [lstripSlash]
  | cons c r ih =>
    by_cases hc : c = '/'
    · simpa [lstripSlash, List.dropWhile_cons, hc] using ih
    · simp [lstripSlash, List.dropWhile_cons, hc]

theorem lstripSlash_of_head_ne (l : Str) (h : l.head? ≠ some '/') :
    lstripSlash l = l := by
  cases l with
  | nil => rfl
  | cons c r =>
    have hc : ¬ c = '/' := by
      intro hcc
      exact h (by simp [hcc])
    simp [lstripSlash, List.dropWhile_cons, hc]

/-- C10: `normalize_prefix` always returns either the empty string or a
string that does not start with `'/'` and ends with `'/'`, and it is
idempotent. -/
theorem claim_C10 (p : Option Str) :
    ( normalize_prefix p = [] ∨
      (( normalize_prefix p).head? ≠ some '/' ∧
        endsWithSlash ( normalize_prefix p) = true)) ∧
    normalize_prefix (some ( normalize_prefix p)) = normalize_prefix p := by
  have idem_empty : normalize_prefix (some ([] : Str)) = [] := rfl
  cases p with
  | none =>
    exact ⟨Or.inl rfl, rfl⟩
  | some s =>
    by_cases hs : s = []
    · subst hs
      exact ⟨Or.inl rfl, rfl⟩
    · have hmain : normalize_prefix (some s)
          = (if lstripSlash s ≠ [] ∧ ¬ endsWithSlash (lstripSlash s)
              then lstripSlash s ++ ['/'] else lstripSlash s) := by
        simp [ normalize_prefix, hs]
      by_cases h2 : lstripSlash s = []
      · have hres : normalize_prefix (some s) = [] := by
          rw [hmain, h2]
          simp
        rw [hres]
        exact ⟨Or.inl rfl, idem_empty⟩
      · by_cases hend : endsWithSlash (lstripSlash s)
        · have hres : normalize_prefix (some s) = lstripSlash s := by
            rw [hmain, if_neg]
            rintro ⟨-, hne⟩
            exact hne hend
          rw [hres]
          refine ⟨Or.inr ⟨lstripSlash_head s, hend⟩, ?_⟩
          have hstrip : lstripSlash (lstripSlash s) = lstripSlash s :=
            lstripSlash_of_head_ne _ (lstripSlash_head s)
          simp [ normalize_prefix, h2, hstrip, hend]
        · have hres : normalize_prefix (some s) = lstripSlash s ++ ['/'] := by
            rw [hmain, if_pos ⟨h2, hend⟩]
          rw [hres]
          obtain ⟨c, r, hcr⟩ : ∃ c r, lstripSlash s = c :: r := by
            cases hl : lstripSlash s with
            | nil => exact absurd hl h2
            | cons c r => exact ⟨c, r, rfl⟩
          have hhead : (lstripSlash s ++ ['/']).head? = (lstripSlash s).head? := by
            rw [hcr]
            rfl
          have hends : endsWithSlash (lstripSlash s ++ ['/']) = true := by
            simp [endsWithSlash, List.getLast?_concat]
          refine ⟨Or.inr ⟨by rw [hhead]; exact lstripSlash_head s, hends⟩, ?_⟩
          have hne2 : (lstripSlash s ++ ['/'] : Str) ≠ [] := by
            rw [hcr]
            simp
          have hstrip2 : lstripSlash (lstripSlash s ++ ['/']) = lstripSlash s ++ ['/'] := by
            apply lstripSlash_of_head_ne
            rw [hhead]
            exact lstripSlash_head s
          simp [ normalize_prefix, hne2, hstrip2, hends]

theorem humanLoop_step (f : ℚ) (i : Nat) (h1 : 1024 ≤ f) (h2 : i < 4) :
    humanLoop f i = humanLoop (f / 1024) (i + 1) := by
  unfold humanLoop
  have e1 : 4 - i = (4 - (i + 1)) + 1 := by omega
  rw [e1]
  simp only [humanLoopAux]
  rw [if_pos ⟨h1, h2⟩]

theorem humanLoop_stop (f : ℚ) (i : Nat) (h : ¬ (1024 ≤ f ∧ i < 4)) :
    humanLoop f i = (f, i) := by
  unfold humanLoop
  cases h4 : 4 - i with
  | zero => rfl
  | succ m =>
    simp only [humanLoopAux]
    rw [if_neg h]

/-- Full characterization of the scaling loop on an integer input ≥ 1: it
stops at the value `n / 1024^i` where `i` is the largest unit index (≤ 4)
such that `1024^i ≤ n`, capped at 4. -/
theorem humanLoop_spec (n : Int) (h : 1 ≤ n) :
    ∃ i : Nat, humanLoop (n : ℚ) 0 = ((n : ℚ) / 1024 ^ i, i) ∧ i ≤ 4 ∧
      (1024:Int) ^ i ≤ n ∧ (i = 4 ∨ n < 1024 ^ (i + 1)) := by
  have h1024 : (0:ℚ) < 1024 := by norm_num
  have hcast : ∀ k : Nat, ((1024:ℚ) ^ k ≤ (n:ℚ)) ↔ ((1024:Int) ^ k ≤ n) := by
    intro k
    constructor
    · intro hk
      exact_mod_cast hk
    · intro hk
      exact_mod_cast hk
  have hcastlt : ∀ k : Nat, ((n:ℚ) < (1024:ℚ) ^ k) ↔ (n < (1024:Int) ^ k) := by
    intro k
    constructor
    · intro hk
      exact_mod_cast hk
    · intro hk
      exact_mod_cast hk
  have hstep : ∀ k : Nat, k < 4 → (1024:ℚ) ^ (k + 1) ≤ (n:ℚ) →
      humanLoop ((n:ℚ) / 1024 ^ k) k = humanLoop ((n:ℚ) / 1024 ^ (k + 1)) (k + 1) := by
    intro k hk hle
    have hpk : (0:ℚ) < 1024 ^ k := pow_pos h1024 k
    have hge : (1024:ℚ) ≤ (n:ℚ) / 1024 ^ k := by
      rw [le_div_iff₀ hpk]
      calc (1024:ℚ) * 1024 ^ k = 1024 ^ (k + 1) := by rw [pow_succ, mul_comm]
        _ ≤ (n:ℚ) := hle
    rw [humanLoop_step _ _ hge hk, div_div, ← pow_succ]
  have hstop : ∀ k : Nat, (k = 4 ∨ (n:ℚ) < 1024 ^ (k + 1)) →
      humanLoop ((n:ℚ) / 1024 ^ k) k = ((n:ℚ) / 1024 ^ k, k) := by
    intro k hk
    apply humanLoop_stop
    rintro ⟨hge, hlt4⟩
    have hpk : (0:ℚ) < 1024 ^ k := pow_pos h1024 k
    have hbig : (1024:ℚ) ^ (k + 1) ≤ (n:ℚ) := by
      rw [le_div_iff₀ hpk] at hge
      calc (1024:ℚ) ^ (k + 1) = 1024 * 1024 ^ k := by rw [pow_succ, mul_comm]
        _ ≤ (n:ℚ) := hge
    rcases hk with hk4 | hlt
    · omega
    · linarith
  by_cases c1 : n < 1024 ^ (0 + 1)
  · refine ⟨0, ?_, by omega, by simpa using h, Or.inr c1⟩
    calc humanLoop (n:ℚ) 0 = humanLoop ((n:ℚ) / 1024 ^ 0) 0 := by norm_num
      _ = ((n:ℚ) / 1024 ^ 0, 0) := hstop 0 (Or.inr ((hcastlt (0 + 1)).mpr c1))
  · have hle1 : (1024:ℚ) ^ (0 + 1) ≤ (n:ℚ) := (hcast (0 + 1)).mpr (Int.not_lt.mp c1)
    by_cases c2 : n < 1024 ^ (1 + 1)
    · refine ⟨1, ?_, by omega, by simpa using (hcast (0 + 1)).mp hle1, Or.inr c2⟩
      calc humanLoop (n:ℚ) 0 = humanLoop ((n:ℚ) / 1024 ^ 0) 0 := by norm_num
        _ = humanLoop ((n:ℚ) / 1024 ^ (0 + 1)) (0 + 1) := hstep 0 (by omega) hle1
        _ = humanLoop ((n:ℚ) / 1024 ^ 1) 1 := by norm_num
        _ = ((n:ℚ) / 1024 ^ 1, 1) := hstop 1 (Or.inr ((hcastlt (1 + 1)).mpr c2))
    · have hle2 : (1024:ℚ) ^ (1 + 1) ≤ (n:ℚ) := (hcast (1 + 1)).mpr (Int.not_lt.mp c2)
      by_cases c3 : n < 1024 ^ (2 + 1)
      · refine ⟨2, ?_, by omega, by simpa using (hcast (1 + 1)).mp hle2, Or.inr c3⟩
        calc humanLoop (n:ℚ) 0 = humanLoop ((n:ℚ) / 1024 ^ 0) 0 := by norm_num
          _ = humanLoop ((n:ℚ) / 1024 ^ (0 + 1)) (0 + 1) := hstep 0 (by omega) hle1
          _ = humanLoop ((n:ℚ) / 1024 ^ 1) 1 := by norm_num
          _ = humanLoop ((n:ℚ) / 1024 ^ (1 + 1)) (1 + 1) := hstep 1 (by omega) hle2
          _ = humanLoop ((n:ℚ) / 1024 ^ 2) 2 := by norm_num
          _ = ((n:ℚ) / 1024 ^ 2, 2) := hstop 2 (Or.inr ((hcastlt (2 + 1)).mpr c3))
      · have hle3 : (1024:ℚ) ^ (2 + 1) ≤ (n:ℚ) := (hcast (2 + 1)).mpr (Int.not_lt.mp c3)
        by_cases c4 : n < 1024 ^ (3 + 1)
        · refine ⟨3, ?_, by omega, by simpa using (hcast (2 + 1)).mp hle3, Or.inr c4⟩
          calc humanLoop (n:ℚ) 0 = humanLoop ((n:ℚ) / 1024 ^ 0) 0 := by norm_num
            _ = humanLoop ((n:ℚ) / 1024 ^ (0 + 1)) (0 + 1) := hstep 0 (by omega) hle1
            _ = humanLoop ((n:ℚ) / 1024 ^ 1) 1 := by norm_num
            _ = humanLoop ((n:ℚ) / 1024 ^ (1 + 1)) (1 + 1) := hstep 1 (by omega) hle2
            _ = humanLoop ((n:ℚ) / 1024 ^ 2) 2 := by norm_num
            _ = humanLoop ((n:ℚ) / 1024 ^ (2 + 1)) (2 + 1) := hstep 2 (by omega) hle3
            _ = humanLoop ((n:ℚ) / 1024 ^ 3) 3 := by norm_num
            _ = ((n:ℚ) / 1024 ^ 3, 3) := hstop 3 (Or.inr ((hcastlt (3 + 1)).mpr c4))
        · have hle4 : (1024:ℚ) ^ (3 + 1) ≤ (n:ℚ) := (hcast (3 + 1)).mpr (Int.not_lt.mp c4)
          refine ⟨4, ?_, by omega, by simpa using (hcast (3 + 1)).mp hle4, Or.inl rfl⟩
          calc humanLoop (n:ℚ) 0 = humanLoop ((n:ℚ) / 1024 ^ 0) 0 := by norm_num
            _ = humanLoop ((n:ℚ) / 1024 ^ (0 + 1)) (0 + 1) := hstep 0 (by omega) hle1
            _ = humanLoop ((n:ℚ) / 1024 ^ 1) 1 := by norm_num
            _ = humanLoop ((n:ℚ) / 1024 ^ (1 + 1)) (1 + 1) := hstep 1 (by omega) hle2
            _ = humanLoop ((n:ℚ) / 1024 ^ 2) 2 := by norm_num
            _ = humanLoop ((n:ℚ) / 1024 ^ (2 + 1)) (2 + 1) := hstep 2 (by omega) hle3
            _ = humanLoop ((n:ℚ) / 1024 ^ 3) 3 := by norm_num
            _ = humanLoop ((n:ℚ) / 1024 ^ (3 + 1)) (3 + 1) := hstep 3 (by omega) hle4
            _ = humanLoop ((n:ℚ) / 1024 ^ 4) 4 := by norm_num
            _ = ((n:ℚ) / 1024 ^ 4, 4) := hstop 4 (Or.inl rfl)

/-- C8: `human_bytes` formats on the 1024-based B/KB/MB/GB/TB scale with
two decimals, stopping at the largest unit index `i ≤ 4` with `1024^i ≤ n`
(never past TB); `human_bytes 1536 = "1.50 KB"`; and the renderer
substitutes the literal `"0 B"` for any node with `file_count = 0`. -/
theorem claim_C8 :
    human_bytes 1536 = "1.50 KB" ∧
    (∀ tn : TreeNode, tn.file_count = 0 → size_str tn = "0 B") ∧
    (∀ n : Int, 1 ≤ n →
      ∃ i : Nat, humanLoop (n : ℚ) 0 = ((n : ℚ) / 1024 ^ i, i) ∧
        human_bytes n = fmt2 ((n : ℚ) / 1024 ^ i) ++ " " ++ humanUnits.getD i ("B") ∧
        i ≤ 4 ∧ (1024:Int) ^ i ≤ n ∧ (i = 4 ∨ n < 1024 ^ (i + 1))) := by
  refine ⟨?_, ?_, ?_⟩
  · have h1 : humanLoop ((1536 : Int) : ℚ) 0 = (3/2, 1) := by
      have hgt : (1024:ℚ) ≤ ((1536 : Int) : ℚ) := by norm_num
      have hlt : ¬ ((1024:ℚ) ≤ ((1536 : Int) : ℚ) / 1024 ∧ 1 < 4) := by
        rintro ⟨hx, -⟩
        rw [le_div_iff₀ (by norm_num : (0:ℚ) < 1024)] at hx
        norm_num at hx
      rw [humanLoop_step _ _ hgt (by omega), humanLoop_stop _ _ hlt]
      norm_num
    have h150 : ((3:ℚ)/2) * 100 = 150 := by norm_num
    have h2 : roundHalfEven (((3:ℚ)/2) * 100) = 150 := by
      rw [h150]
      unfold roundHalfEven
      have hfl : ⌊(150:ℚ)⌋ = 150 := by norm_num
      rw [hfl]
      norm_num
    show human_bytes 1536 = "1.50 KB"
    unfold human_bytes
    rw [h1]
    show fmt2 (3/2) ++ " " ++ humanUnits.getD 1 ("B") = "1.50 KB"
    unfold fmt2
    rw [h2]
    rfl
  · intro tn h0
    unfold size_str
    rw [h0]
    simp
  · intro n hn
    obtain ⟨i, hpair, hle4, hlow, hhigh⟩ := humanLoop_spec n hn
    refine ⟨i, hpair, ?_, hle4, hlow, hhigh⟩
    unfold human_bytes
    rw [hpair]

/-- Witness for C8's quantified part at `n = 1536`. -/
theorem claim_C8_witness :
    (1:Int) ≤ 1536 ∧
    ∃ i : Nat, humanLoop ((1536 : Int) : ℚ) 0 = (((1536 : Int) : ℚ) / 1024 ^ i, i) ∧
      human_bytes 1536
        = fmt2 (((1536 : Int) : ℚ) / 1024 ^ i) ++ " " ++ humanUnits.getD i ("B") ∧
      i ≤ 4 ∧ (1024:Int) ^ i ≤ 1536 ∧ (i = 4 ∨ (1536:Int) < 1024 ^ (i + 1)) :=
  ⟨by norm_num, claim_C8.2.2 1536 (by norm_num)⟩

end SDC3
